import Mathlib

/-!
# Verification of `rhm::ring_buffer` (src/ring_buffer.hh)

Shallow embedding of the C++ class `ring_buffer<Capacity, ContainerT>`.

Modelling conventions:

* The backing container is a `List α`; an iterator into it is a `Nat` index,
  with index `container.length` playing the role of `container.end()`.
  This is faithful for the containers the class is used with
  (`std::array`, `std::vector`, `std::list`): iterators form a linear
  position space `begin() + k`, and `container.end()` is `begin() + size`.
* `curSize` is a C++ `size_t`; increments and decrements are taken
  modulo `2^64` (`incSize` / `decSize`), so the underflow of `--curSize`
  on an empty buffer is represented exactly.
* The template parameter `Capacity` is an ordinary parameter `C : Nat`;
  faithfulness to `size_t` requires `C < 2^64` as a hypothesis where the
  wraparound arithmetic matters.
* Whether `ContainerT` has a `push_back` member (the `constexpr bool
  has_push_back` test in `push_imp`) is a parameter `g : Bool`
  (`g = true` for a growable container such as `std::vector`,
  `g = false` for `std::array`).
* A C `assert` that fails aborts the process; an operation containing
  asserts is modelled as returning `Option`, with `none` for the abort.
  `advance_front` contains no assert in the source, so it always returns
  `some`; `advance_back` contains `assert(curSize < Capacity)`,
  `assert(front_it != container.end())` and
  `assert(std::distance(container.begin(), container.end()) > 0)`.
-/

namespace RingBuf

/-- `2^64`, the modulus of `size_t` arithmetic. -/
def USIZE : Nat := 2 ^ 64

/-- `++curSize` on a `size_t`. -/
def incSize (n : Nat) : Nat := (n + 1) % USIZE

/-- `--curSize` on a `size_t`. -/
def decSize (n : Nat) : Nat := (n + (USIZE - 1)) % USIZE

/-- The state of a `ring_buffer` object: the backing container and the
`curSize`, `front_it`, `back_it` members.  Iterators are indices into
`container`; the index `container.length` is `container.end()`. -/
structure RB (α : Type) where
  container : List α
  curSize : Nat
  front_it : Nat
  back_it : Nat
deriving Repr, DecidableEq

/-- The default constructor
`ring_buffer() : curSize(0), front_it(container.end()), back_it(container.begin())`.
For an array-backed buffer the freshly constructed container already has
its `N` (default-constructed) elements, so `init` is that initial list;
for a vector-backed buffer `init = []`. -/
def mkRB (init : List α) : RB α := ⟨init, 0, init.length, 0⟩

/-- `nil()`: `return container.end();` -/
def nil (b : RB α) : Nat := b.container.length

/-- `front()`: returns `nil()` if `front_it == container.end() || curSize == 0`,
else `front_it`. -/
def front (b : RB α) : Nat :=
  if b.front_it = b.container.length ∨ b.curSize = 0 then nil b else b.front_it

/-- `back()`: returns `nil()` if `front_it == back_it`, else `back_it`. -/
def back (b : RB α) : Nat :=
  if b.front_it = b.back_it then nil b else b.back_it

/-- `size()`: `return curSize;` -/
def size (b : RB α) : Nat := b.curSize

/-- `capacity()`: `return Capacity;` -/
def capacity (C : Nat) (_b : RB α) : Nat := C

/-- `empty()`: `return (curSize == 0);` -/
def empty (b : RB α) : Bool := b.curSize == 0

/-- `full()`: `return (curSize == Capacity);` -/
def full (C : Nat) (b : RB α) : Bool := b.curSize == C

/-- `reset()`: `front_it = container.end(); back_it = container.begin(); curSize = 0;` -/
def reset (b : RB α) : RB α := ⟨b.container, 0, b.container.length, 0⟩

/-- The state transformation of `advance_front()`:
```
if(front_it == container.end())  front_it = container.begin();
else if(++front_it == container.end()) front_it = container.begin();
if(front_it == back_it) { front_it = container.end(); back_it = container.begin(); }
--curSize;
```
-/
def advance_front_core (b : RB α) : RB α :=
  if (if b.front_it = b.container.length then 0
      else if b.front_it + 1 = b.container.length then 0
      else b.front_it + 1) = b.back_it then
    ⟨b.container, decSize b.curSize, b.container.length, 0⟩
  else
    ⟨b.container, decSize b.curSize,
     (if b.front_it = b.container.length then 0
      else if b.front_it + 1 = b.container.length then 0
      else b.front_it + 1), b.back_it⟩

/-- `advance_front()` contains no assertion, so it never aborts: it always
returns `some` of the transformed state (`none` would model an assert). -/
def advance_front (b : RB α) : Option (RB α) := some (advance_front_core b)

/-- `pop_front()`: `{ advance_front(); }` -/
def pop_front (b : RB α) : Option (RB α) := advance_front b

/-- `advance_back()`:
```
assert(curSize < Capacity);
++back_it;
if(back_it == container.end()) back_it = container.begin();
if(front_it == container.end()) front_it = container.begin();
assert(front_it != container.end());
assert(std::distance(container.begin(), container.end()) > 0);
++curSize;
```
`none` models a failed assert. -/
def advance_back (C : Nat) (b : RB α) : Option (RB α) :=
  if b.curSize < C then
    if (if b.front_it = b.container.length then 0 else b.front_it) ≠ b.container.length
        ∧ 0 < b.container.length then
      some ⟨b.container, incSize b.curSize,
            (if b.front_it = b.container.length then 0 else b.front_it),
            (if b.back_it + 1 = b.container.length then 0 else b.back_it + 1)⟩
    else none
  else none

/-- `if(back_it == cont.end()) back_it = cont.begin();` in `push_imp`. -/
def wrap_back (b : RB α) : RB α :=
  if b.back_it = b.container.length then ⟨b.container, b.curSize, b.front_it, 0⟩ else b

/-- `*back_it = item;` in `push_imp`. -/
def write_back (b : RB α) (item : α) : RB α :=
  ⟨b.container.set b.back_it item, b.curSize, b.front_it, b.back_it⟩

/-- `push_imp(cont, item)`:
```
constexpr bool has_push_back = requires(...) { c.push_back(v); };
if constexpr(has_push_back)
  if(cont.size() < Capacity) {
    cont.push_back(item); front_it = cont.begin(); back_it = cont.end();
    ++curSize; return;
  }
if(curSize == Capacity) advance_front();
if(back_it == cont.end()) back_it = cont.begin();
*back_it = item;
advance_back();
```
`g` is the `has_push_back` test on `ContainerT`. -/
def push_imp (C : Nat) (g : Bool) (b : RB α) (item : α) : Option (RB α) :=
  if g = true ∧ b.container.length < C then
    some ⟨b.container ++ [item], incSize b.curSize, 0, b.container.length + 1⟩
  else
    advance_back C
      (write_back (wrap_back (if b.curSize = C then advance_front_core b else b)) item)

/-- `push(item)`: `{ push_imp(container, item); }` -/
def push (C : Nat) (g : Bool) (b : RB α) (item : α) : Option (RB α) :=
  push_imp C g b item

/-- Copy constructor `ring_buffer(const ring_buffer& other)`: copies the
container and recomputes the iterators at the same ordinal offsets, with
`other.front_it == other.container.end()` special-cased to the new
container's `end()` (lines 86-91 of the source).  In the index model an
offset from `begin()` is the index itself. -/
def copy_ctor (other : RB α) : RB α :=
  ⟨other.container, other.curSize,
   if other.front_it = other.container.length then other.container.length
   else other.front_it,
   other.back_it⟩

/-- Copy assignment `operator=(const ring_buffer& other)` (lines 93-101).
`isSelf` models the physical identity test `&other == this`.  Note that in
the source the *back* iterator is also conditioned on
`other.front_it == other.container.end()` (line 99), not on `back_it`. -/
def copy_assign (self other : RB α) (isSelf : Bool) : RB α :=
  if isSelf then self
  else
    ⟨other.container, other.curSize,
     if other.front_it = other.container.length then other.container.length
     else other.front_it,
     if other.front_it = other.container.length then other.container.length
     else other.back_it⟩

/-- Move assignment `operator=(ring_buffer&& old)` (lines 103-113): saves
`std::distance(old.container.begin(), old.front_it)` and the same for
`back_it`, moves the container, and rebuilds the iterators from those
offsets.  In the index model the saved distances are the indices again. -/
def move_assign (self old : RB α) (isSelf : Bool) : RB α :=
  if isSelf then self
  else ⟨old.container, old.curSize, old.front_it, old.back_it⟩

/-- Push a whole list of values in order, stopping at the first abort. -/
def pushSeq (C : Nat) (g : Bool) : RB α → List α → Option (RB α)
  | b, [] => some b
  | b, v :: vs => (push C g b v).bind fun b2 => pushSeq C g b2 vs

/-- Apply `advance_front()` (`pop_front()`) `k` times. -/
def popN : Nat → RB α → RB α
  | 0, b => b
  | k + 1, b => popN k (advance_front_core b)

/-- The live elements of the buffer, oldest first: `curSize` elements of the
container starting at `front_it`, wrapping at the container's end
(`d` is only used for out-of-range indices, which never occur on the
states the theorems below evaluate it on). -/
def contents (d : α) (b : RB α) : List α :=
  (List.range b.curSize).map fun i =>
    b.container.getD ((b.front_it + i) % b.container.length) d

/-- The element designated by `front()` (`*front()`), or `none` when
`front()` returns `nil()` (dereferencing `end()` would be UB). -/
def frontGet (b : RB α) : Option α := b.container[front b]?

/-- States reachable from a freshly constructed buffer through the public
mutating operations, entering only states the operations actually return
(an aborted `advance_back` has no successor state) and respecting the
documented preconditions (`pop_front` only on a non-empty buffer).
`advance_back` is included for the fixed-size instantiation. -/
inductive Reachable (C : Nat) : Bool → RB Int → Prop where
  | fresh_arr (init : List Int) (h : init.length = C) :
      Reachable C false (mkRB init)
  | fresh_vec : Reachable C true (mkRB [])
  | step_push {g : Bool} {b b2 : RB Int} {x : Int}
      (hr : Reachable C g b) (hp : push C g b x = some b2) : Reachable C g b2
  | step_pop {g : Bool} {b : RB Int}
      (hr : Reachable C g b) (hne : b.curSize ≠ 0) :
      Reachable C g (advance_front_core b)
  | step_reset {g : Bool} {b : RB Int} (hr : Reachable C g b) :
      Reachable C g (reset b)
  | step_advance_back {b b2 : RB Int}
      (hr : Reachable C false b) (ha : advance_back C b = some b2) :
      Reachable C false b2

/-- Invariant of the fixed-size (`std::array`-backed) instantiation with
`N = Capacity = C`: the container never changes length; an empty buffer
has the sentinel front and the back at the physical start; a non-empty
buffer has both cursors in range and the back cursor at distance
`curSize` after the front cursor, modulo wraparound. -/
def InvA (C : Nat) (b : RB Int) : Prop :=
  b.container.length = C ∧
  ((b.curSize = 0 ∧ b.front_it = C ∧ b.back_it = 0) ∨
   (1 ≤ b.curSize ∧ b.curSize ≤ C ∧ b.front_it < C ∧ b.back_it < C ∧
    (b.back_it = b.front_it + b.curSize ∨
     b.back_it + C = b.front_it + b.curSize)))

/-- Invariant of the growable (`std::vector`-backed) instantiation: the
physical size never exceeds the capacity, and the count never exceeds the
physical size. -/
def InvG (C : Nat) (b : RB Int) : Prop :=
  b.container.length ≤ C ∧ b.curSize ≤ b.container.length

/-- The invariant appropriate to the backing container kind. -/
def InvAll (C : Nat) (g : Bool) (b : RB Int) : Prop :=
  if g then InvG C b else InvA C b

lemma usize_eq : USIZE = 18446744073709551616 := by norm_num [USIZE]

lemma decSize_eq_sub {n : Nat} (h1 : 0 < n) (h2 : n ≤ USIZE) : decSize n = n - 1 := by
  unfold decSize
  rw [usize_eq] at h2 ⊢
  omega

lemma incSize_eq_succ {n : Nat} (h : n + 1 < USIZE) : incSize n = n + 1 := by
  unfold incSize
  rw [usize_eq] at h ⊢
  omega

lemma decSize_zero : decSize 0 = USIZE - 1 := by
  unfold decSize
  rw [usize_eq]

lemma set_at_append (ws : List α) (r : α) (rest : List α) (v : α) :
    (ws ++ r :: rest).set ws.length v = ws ++ v :: rest := by
  induction ws with
  | nil => rfl
  | cons a ws ih => simp [List.set, ih]

lemma advance_back_eq {C : Nat} {b : RB α} (h1 : b.curSize < C)
    (h2 : 0 < b.container.length) :
    advance_back C b = some ⟨b.container, incSize b.curSize,
      (if b.front_it = b.container.length then 0 else b.front_it),
      (if b.back_it + 1 = b.container.length then 0 else b.back_it + 1)⟩ := by
  have hcond : (if b.front_it = b.container.length then 0 else b.front_it)
      ≠ b.container.length ∧ 0 < b.container.length := by
    refine ⟨?_, h2⟩
    split
    · omega
    · next h => exact h
  unfold advance_back
  rw [if_pos h1, if_pos hcond]

lemma pushSeq_append (C : Nat) (g : Bool) (b : RB α) (xs ys : List α) :
    pushSeq C g b (xs ++ ys) = (pushSeq C g b xs).bind fun b2 => pushSeq C g b2 ys := by
  induction xs generalizing b with
  | nil => rfl
  | cons x xs ih =>
    simp only [List.cons_append, pushSeq]
    cases push C g b x with
    | none => rfl
    | some b2 => simp [ih b2]

/-- Growth phase of a vector-backed buffer: pushing `vs` onto the state in
which `ws` has been pushed so far (container `ws`, all live, front at the
start, back at the end) appends `vs` by `push_back`. -/
lemma pushSeq_grow_aux (C : Nat) (hW : C < USIZE) (vs : List Int) :
    ∀ ws : List Int, ws.length + vs.length ≤ C →
    pushSeq C true ⟨ws, ws.length, 0, ws.length⟩ vs =
      some ⟨ws ++ vs, ws.length + vs.length, 0, ws.length + vs.length⟩ := by
  induction vs with
  | nil =>
    intro ws h
    simp [pushSeq]
  | cons v vs ih =>
    intro ws h
    have hl : ws.length + (vs.length + 1) ≤ C := h
    have hlt : ws.length < C := by omega
    have hpush : push C true ⟨ws, ws.length, 0, ws.length⟩ v =
        some ⟨ws ++ [v], ws.length + 1, 0, ws.length + 1⟩ := by
      unfold push push_imp
      rw [if_pos ⟨rfl, hlt⟩,
        incSize_eq_succ (show ws.length + 1 < USIZE by omega)]
    have h2 : (ws ++ [v]).length + vs.length ≤ C := by
      simp only [List.length_append, List.length_singleton]
      omega
    have hstep := ih (ws ++ [v]) h2
    simp only [List.length_append, List.length_singleton] at hstep
    simp only [pushSeq, hpush, Option.some_bind, hstep, List.append_assoc,
      List.singleton_append, Option.some.injEq, RB.mk.injEq, List.length_cons]
    exact ⟨trivial, by omega, trivial, by omega⟩

lemma advance_front_core_mk (cont : List α) (n f bk : Nat) :
    advance_front_core ⟨cont, n, f, bk⟩ =
      if (if f = cont.length then 0
          else if f + 1 = cont.length then 0 else f + 1) = bk then
        ⟨cont, decSize n, cont.length, 0⟩
      else ⟨cont, decSize n,
        (if f = cont.length then 0
         else if f + 1 = cont.length then 0 else f + 1), bk⟩ := rfl

lemma advance_back_mk (C : Nat) (cont : List α) (n f bk : Nat) :
    advance_back C ⟨cont, n, f, bk⟩ =
      if n < C then
        if (if f = cont.length then 0 else f) ≠ cont.length ∧ 0 < cont.length then
          some ⟨cont, incSize n, (if f = cont.length then 0 else f),
                (if bk + 1 = cont.length then 0 else bk + 1)⟩
        else none
      else none := rfl

lemma wrap_back_mk (cont : List α) (n f bk : Nat) :
    wrap_back ⟨cont, n, f, bk⟩ =
      if bk = cont.length then ⟨cont, n, f, 0⟩ else ⟨cont, n, f, bk⟩ := rfl

lemma write_back_mk (cont : List α) (n f bk : Nat) (item : α) :
    write_back ⟨cont, n, f, bk⟩ item = ⟨cont.set bk item, n, f, bk⟩ := rfl

lemma push_mk (C : Nat) (g : Bool) (cont : List α) (n f bk : Nat) (item : α) :
    push C g ⟨cont, n, f, bk⟩ item =
      if g = true ∧ cont.length < C then
        some ⟨cont ++ [item], incSize n, 0, cont.length + 1⟩
      else
        advance_back C (write_back (wrap_back
          (if n = C then advance_front_core ⟨cont, n, f, bk⟩
           else ⟨cont, n, f, bk⟩)) item) := by
  unfold push push_imp
  rfl

/-- `n + 1` wrapped at the container boundary is `(n + 1) % C`. -/
lemma succ_mod_ring {n C : Nat} (h : n < C) :
    (if n + 1 = C then 0 else n + 1) = (n + 1) % C := by
  split
  · next he => rw [he, Nat.mod_self]
  · next he => rw [Nat.mod_eq_of_lt (by omega)]

/-- Pushing `vs` (at most `C` values) into a freshly constructed
vector-backed buffer: the vector grows to exactly `vs`, front at the
start, back at the vector's end. -/
lemma pushSeq_grow (C : Nat) (hW : C < USIZE) (vs : List Int)
    (h : vs.length ≤ C) :
    pushSeq C true (mkRB []) vs = some ⟨vs, vs.length, 0, vs.length⟩ := by
  have := pushSeq_grow_aux C hW vs [] (by simpa using h)
  simpa [mkRB] using this

/-- Fill phase of an array-backed buffer (store length `C`): after `ws` has
been pushed, the container is `ws ++ rest`, the cursors are as stated, and
pushing `vs` overwrites the next `vs.length` retired slots. -/
lemma pushSeqA_aux (C : Nat) (hC : 0 < C) (hW : C < USIZE) (vs : List Int) :
    ∀ ws rest : List Int, ws.length + rest.length = C →
      ws.length + vs.length ≤ C →
    pushSeq C false
        ⟨ws ++ rest, ws.length, (if ws.length = 0 then C else 0),
          ws.length % C⟩ vs =
      some ⟨ws ++ vs ++ rest.drop vs.length, ws.length + vs.length,
            (if ws.length + vs.length = 0 then C else 0),
            (ws.length + vs.length) % C⟩ := by
  induction vs with
  | nil =>
    intro ws rest h1 h2
    simp [pushSeq]
  | cons v vs ih =>
    intro ws rest h1 h2
    have hlc : ws.length + (vs.length + 1) ≤ C := h2
    have hlt : ws.length < C := by omega
    cases rest with
    | nil =>
      exfalso
      simp only [List.length_nil] at h1
      omega
    | cons r rest2 =>
      have hr2 : ws.length + (rest2.length + 1) = C := by
        simp only [List.length_cons] at h1
        omega
      have hlen1 : (ws ++ r :: rest2).length = C := by
        simp only [List.length_append, List.length_cons]
        omega
      have hlen2 : (ws ++ v :: rest2).length = C := by
        simp only [List.length_append, List.length_cons]
        omega
      have hmod : ws.length % C = ws.length := Nat.mod_eq_of_lt hlt
      have hfront0 : (if (if ws.length = 0 then C else 0) = (ws ++ v :: rest2).length
          then 0 else (if ws.length = 0 then C else 0)) = 0 := by
        rw [hlen2]
        by_cases h0 : ws.length = 0
        · simp [h0]
        · simp [h0]
      have hpush : push C false
          ⟨ws ++ r :: rest2, ws.length, (if ws.length = 0 then C else 0),
            ws.length % C⟩ v =
          some ⟨ws ++ v :: rest2, ws.length + 1, 0, (ws.length + 1) % C⟩ := by
        rw [push_mk, if_neg (by simp), if_neg (show ¬(ws.length = C) by omega),
          wrap_back_mk,
          if_neg (show ¬(ws.length % C = (ws ++ r :: rest2).length) by
            rw [hmod, hlen1]; omega),
          write_back_mk, hmod, set_at_append, advance_back_mk, if_pos hlt,
          if_pos (by
            refine ⟨?_, by rw [hlen2]; omega⟩
            rw [hfront0, hlen2]
            omega)]
        rw [incSize_eq_succ (show ws.length + 1 < USIZE by omega), hfront0,
          hlen2, succ_mod_ring hlt]
      have h3 : (ws ++ [v]).length + rest2.length = C := by
        simp only [List.length_append, List.length_singleton]
        omega
      have h4 : (ws ++ [v]).length + vs.length ≤ C := by
        simp only [List.length_append, List.length_singleton]
        omega
      have hstep := ih (ws ++ [v]) rest2 h3 h4
      simp only [List.length_append, List.length_singleton, List.append_assoc,
        List.singleton_append] at hstep
      have hfr : (if ws.length + 1 = 0 then C else 0) = 0 := by simp
      rw [hfr] at hstep
      simp only [pushSeq, hpush, Option.some_bind]
      rw [hstep]
      simp only [List.length_cons, List.drop_succ_cons, List.cons_append,
        List.append_assoc, List.singleton_append, Option.some.injEq,
        RB.mk.injEq]
      refine ⟨trivial, by omega, ?_, ?_⟩
      · have hA : ws.length + 1 + vs.length ≠ 0 := by omega
        have hB : ws.length + (vs.length + 1) ≠ 0 := by omega
        rw [if_neg hA, if_neg hB]
      · have e1 : ws.length + 1 + vs.length = ws.length + (vs.length + 1) := by
          omega
        rw [e1]

/-- Pushing `vs` (at most `C` values) into a freshly constructed
array-backed buffer whose store holds `C` default-constructed values `d`. -/
lemma pushSeqA (C : Nat) (hC : 0 < C) (hW : C < USIZE) (vs : List Int)
    (d : Int) (h : vs.length ≤ C) :
    pushSeq C false (mkRB (List.replicate C d)) vs =
      some ⟨vs ++ List.replicate (C - vs.length) d, vs.length,
            (if vs.length = 0 then C else 0), vs.length % C⟩ := by
  have haux := pushSeqA_aux C hC hW vs [] (List.replicate C d)
    (by simp) (by simp; omega)
  simp only [List.nil_append, List.length_nil, Nat.zero_add, if_pos rfl,
    Nat.zero_mod, List.drop_replicate] at haux
  rw [show mkRB (List.replicate C d) =
    ⟨List.replicate C d, 0, C, 0⟩ by simp [mkRB]]
  exact haux

/-- Pushing one more value into a full buffer whose store is at physical
capacity `C`.  Covers the array-backed full state (`back_it = front_it`)
and the vector-backed just-grown-full state (`front_it = 0`,
`back_it = C`, the container's end).  The oldest element (at `front_it`)
is evicted and overwritten, and both cursors end up one past it. -/
lemma push_full (C : Nat) (hC : 0 < C) (hW : C < USIZE) (g : Bool)
    (store : List Int) (hL : store.length = C) (j bk : Nat) (hj : j < C)
    (hbk : bk = j ∨ (bk = C ∧ j = 0)) (v : Int) :
    push C g ⟨store, C, j, bk⟩ v =
      some ⟨store.set j v, C, (j + 1) % C, (j + 1) % C⟩ := by
  rw [push_mk, if_neg (by rw [hL]; rintro ⟨-, h⟩; omega), if_pos rfl,
    advance_front_core_mk, hL]
  rcases hbk with hbk | ⟨hbk, hj0⟩
  · subst bk
    by_cases hc1 : C = 1
    · subst hc1
      have hj0 : j = 0 := by omega
      subst hj0
      norm_num
      rw [wrap_back_mk, if_neg (by rw [hL]; omega), write_back_mk,
        advance_back_mk, if_pos (by rw [decSize_eq_sub (by omega) (by omega)]; omega),
        if_pos (by constructor <;> simp [List.length_set, hL])]
      rw [decSize_eq_sub (by omega) (by omega), incSize_eq_succ (by omega)]
      simp [List.length_set, hL]
    · -- C ≥ 2: the advanced front does not meet the back cursor
      have hfone : (if j = C then 0 else if j + 1 = C then 0 else j + 1)
          = (j + 1) % C := by
        rw [if_neg (by omega), succ_mod_ring hj]
      rw [hfone, if_neg (show ¬((j + 1) % C = j) by
        have := Nat.mod_lt (j + 1) hC
        rcases Nat.lt_or_ge (j + 1) C with hlt | hge
        · rw [Nat.mod_eq_of_lt hlt]; omega
        · have hje : j + 1 = C := by omega
          rw [hje, Nat.mod_self]; omega)]
      rw [wrap_back_mk, if_neg (by rw [hL]; omega), write_back_mk,
        advance_back_mk,
        if_pos (by rw [decSize_eq_sub (by omega) (by omega)]; omega),
        if_pos (by
          constructor
          · rw [List.length_set, hL]
            have := Nat.mod_lt (j + 1) hC
            split <;> omega
          · rw [List.length_set, hL]; omega)]
      rw [decSize_eq_sub (by omega) (by omega), incSize_eq_succ (by omega),
        List.length_set, hL]
      have hmlt : (j + 1) % C < C := Nat.mod_lt (j + 1) hC
      rw [if_neg (show ¬((j + 1) % C = C) by omega), succ_mod_ring hj,
        show C - 1 + 1 = C by omega]
  · -- vector-backed just-full state: front 0, back C (the end position)
    subst bk
    subst j
    have h1C : (0 + 1) % C < C := Nat.mod_lt (0 + 1) hC
    have hfone : (if 0 = C then 0 else if 0 + 1 = C then 0 else 0 + 1)
        = (0 + 1) % C := by
      rw [if_neg (by omega)]
      exact succ_mod_ring hC
    rw [hfone, if_neg (show ¬((0 + 1) % C = C) by omega)]
    rw [wrap_back_mk, if_pos (by rw [hL]), write_back_mk, advance_back_mk,
      if_pos (by rw [decSize_eq_sub (by omega) (by omega)]; omega),
      if_pos (by
        constructor
        · rw [List.length_set, hL]
          split <;> omega
        · rw [List.length_set, hL]; omega)]
    rw [decSize_eq_sub (by omega) (by omega), incSize_eq_succ (by omega),
      List.length_set, hL]
    rw [if_neg (show ¬((0 + 1) % C = C) by omega),
      succ_mod_ring (show 0 < C from hC), show C - 1 + 1 = C by omega]

/-- Popping `k` elements (with at least `k + 1` live) from a state whose
front cursor has not yet wrapped moves the front cursor forward `k` slots
and decrements the count `k` times; the back cursor is never met because
it is either at the physical start or at least `f + n`. -/
lemma popN_closed (store : List Int) :
    ∀ k n f bk : Nat, k < n → f + n ≤ store.length → n ≤ USIZE →
      (bk = 0 ∨ f + n ≤ bk) →
    popN k ⟨store, n, f, bk⟩ = ⟨store, n - k, f + k, bk⟩ := by
  intro k
  induction k with
  | zero =>
    intro n f bk h1 h2 h3 h4
    simp [popN]
  | succ k ih =>
    intro n f bk h1 h2 h3 h4
    have hstep : advance_front_core ⟨store, n, f, bk⟩ = ⟨store, n - 1, f + 1, bk⟩ := by
      rw [advance_front_core_mk,
        if_neg (show ¬(f = store.length) by omega),
        if_neg (show ¬(f + 1 = store.length) by omega),
        if_neg (show ¬(f + 1 = bk) by omega),
        decSize_eq_sub (by omega) (by omega)]
    have hrest := ih (n - 1) (f + 1) bk (by omega) (by omega) (by omega)
      (by rcases h4 with h | h
          · exact Or.inl h
          · exact Or.inr (by omega))
    calc popN (k + 1) ⟨store, n, f, bk⟩
        = popN k ⟨store, n - 1, f + 1, bk⟩ := by
          simp only [popN, hstep]
      _ = ⟨store, n - 1 - k, f + 1 + k, bk⟩ := hrest
      _ = ⟨store, n - (k + 1), f + (k + 1), bk⟩ := by
          rw [RB.mk.injEq]
          exact ⟨rfl, by omega, by omega, rfl⟩

/-- The live contents of the state reached by the `C + 1`-st push: the
store holds `vs` with its slot `0` overwritten by `v`, and reading
`C` elements from position `1 % C` with wraparound gives
`v2, ..., vC, v`. -/
lemma contents_full_rotate (C : Nat) (hC : 0 < C) (vs : List Int) (v d : Int)
    (hlen : vs.length = C) :
    contents d ⟨vs.set 0 v, C, 1 % C, 1 % C⟩ = vs.drop 1 ++ [v] := by
  have hsetlen : (vs.set 0 v).length = C := by rw [List.length_set, hlen]
  unfold contents
  apply List.ext_getElem
  · simp [hsetlen, hlen]
    omega
  · intro i h1 h2
    simp only [List.length_map, List.length_range] at h1
    simp only [List.getElem_map, List.getElem_range, hsetlen]
    rw [Nat.mod_add_mod]
    by_cases hi : 1 + i < C
    · rw [Nat.mod_eq_of_lt hi,
        List.getD_eq_getElem _ _ (by rw [hsetlen]; omega),
        List.getElem_set_ne (by omega) (by rw [hsetlen]; omega),
        List.getElem_append_left (by simp only [List.length_drop, hlen]; omega),
        List.getElem_drop]
    · have hiC : 1 + i = C := by omega
      rw [hiC, Nat.mod_self,
        List.getD_eq_getElem _ _ (by rw [hsetlen]; omega),
        List.getElem_set_self (by rw [hsetlen]; omega),
        List.getElem_append_right (by simp only [List.length_drop, hlen]; omega)]
      simp only [List.length_drop, hlen]
      have hz : i - (C - 1) = 0 := by omega
      simp [hz]

lemma advance_front_core_container (b : RB α) :
    (advance_front_core b).container = b.container := by
  rcases b with ⟨cont, n, f, bk⟩
  rw [advance_front_core_mk]
  by_cases h : (if f = cont.length then 0
      else if f + 1 = cont.length then 0 else f + 1) = bk
  · rw [if_pos h]
  · rw [if_neg h]

lemma advance_front_core_curSize (b : RB α) :
    (advance_front_core b).curSize = decSize b.curSize := by
  rcases b with ⟨cont, n, f, bk⟩
  rw [advance_front_core_mk]
  by_cases h : (if f = cont.length then 0
      else if f + 1 = cont.length then 0 else f + 1) = bk
  · rw [if_pos h]
  · rw [if_neg h]

lemma wrap_back_container (b : RB α) : (wrap_back b).container = b.container := by
  unfold wrap_back
  split <;> rfl

lemma wrap_back_curSize (b : RB α) : (wrap_back b).curSize = b.curSize := by
  unfold wrap_back
  split <;> rfl

/-- `InvA` at an explicit state, with the projections reduced. -/
lemma InvA_mk_iff (C : Nat) (cont : List Int) (n j bk : Nat) :
    InvA C ⟨cont, n, j, bk⟩ ↔
      cont.length = C ∧
      ((n = 0 ∧ j = C ∧ bk = 0) ∨
       (1 ≤ n ∧ n ≤ C ∧ j < C ∧ bk < C ∧
        (bk = j + n ∨ bk + C = j + n))) :=
  Iff.rfl

lemma InvA_empty_mk (C : Nat) (cont : List Int) (n : Nat)
    (hL : cont.length = C) (hn : n = 0) : InvA C ⟨cont, n, C, 0⟩ :=
  ⟨hL, Or.inl ⟨hn, rfl, rfl⟩⟩

lemma InvA_live_mk (C : Nat) (cont : List Int) (n j bk : Nat)
    (hL : cont.length = C) (h1 : 1 ≤ n) (h2 : n ≤ C) (h3 : j < C)
    (h4 : bk < C) (h5 : bk = j + n ∨ bk + C = j + n) :
    InvA C ⟨cont, n, j, bk⟩ :=
  ⟨hL, Or.inr ⟨h1, h2, h3, h4, h5⟩⟩

/-- Advancing the back cursor one slot keeps it at distance `curSize + 1`
after the front cursor, modulo wraparound. -/
lemma rel_step (C j n bk : Nat) (hC : 0 < C) (h3 : j < C) (h4 : bk < C)
    (h2 : n + 1 ≤ C) (h5 : bk = j + n ∨ bk + C = j + n) :
    (bk + 1) % C = j + (n + 1) ∨ (bk + 1) % C + C = j + (n + 1) := by
  rw [← succ_mod_ring h4]
  split
  · next he => omega
  · next he => omega

/-- `advance_front()` (`pop_front()`) on a non-empty array-backed buffer
preserves the invariant and decrements the count. -/
lemma pop_preservesA (C : Nat) (hC : 0 < C) (hW : C < USIZE)
    (cont : List Int) (n j bk : Nat)
    (hInv : InvA C ⟨cont, n, j, bk⟩) (hne : n ≠ 0) :
    InvA C (advance_front_core ⟨cont, n, j, bk⟩) ∧
      (advance_front_core ⟨cont, n, j, bk⟩).curSize = n - 1 := by
  rw [InvA_mk_iff] at hInv
  obtain ⟨hL, hcase⟩ := hInv
  rcases hcase with ⟨h0, -, -⟩ | ⟨h1, h2, h3, h4, h5⟩
  · exact absurd h0 hne
  · have hdec : decSize n = n - 1 := decSize_eq_sub (by omega) (by omega)
    rw [advance_front_core_mk, hL]
    rw [if_neg (show ¬(j = C) by omega)]
    rcases h5 with h5 | h5 <;>
    · by_cases hj1 : j + 1 = C
      · rw [if_pos hj1]
        by_cases htr : (0 : Nat) = bk
        · rw [if_pos htr]
          exact ⟨InvA_empty_mk C cont _ hL (by rw [hdec]; omega), hdec⟩
        · rw [if_neg htr]
          refine ⟨InvA_live_mk C cont _ 0 bk hL ?_ ?_ hC h4 ?_, hdec⟩
          · rw [hdec]; omega
          · rw [hdec]; omega
          · rw [hdec]; omega
      · rw [if_neg hj1]
        by_cases htr : j + 1 = bk
        · rw [if_pos htr]
          exact ⟨InvA_empty_mk C cont _ hL (by rw [hdec]; omega), hdec⟩
        · rw [if_neg htr]
          refine ⟨InvA_live_mk C cont _ (j + 1) bk hL ?_ ?_ (by omega) h4 ?_, hdec⟩
          · rw [hdec]; omega
          · rw [hdec]; omega
          · rw [hdec]; omega

/-- `push()` on an array-backed buffer satisfying the invariant: it always
succeeds, leaves `curSize = min (n + 1) C`, and preserves the invariant. -/
lemma push_preservesA (C : Nat) (hC : 0 < C) (hW : C < USIZE)
    (cont : List Int) (n j bk : Nat) (x : Int)
    (hInv : InvA C ⟨cont, n, j, bk⟩) :
    ∃ b2, push C false ⟨cont, n, j, bk⟩ x = some b2 ∧
      b2.curSize = min (n + 1) C ∧ InvA C b2 := by
  rw [InvA_mk_iff] at hInv
  obtain ⟨hL, hcase⟩ := hInv
  by_cases hn : n = C
  · -- full buffer: the back cursor coincides with the front cursor
    have hj : j < C := by
      rcases hcase with ⟨h0, -, -⟩ | ⟨-, -, h3, -, -⟩
      · omega
      · exact h3
    have hbk : bk = j := by
      rcases hcase with ⟨h0, -, -⟩ | ⟨-, -, -, h4, h5⟩
      · omega
      · rcases h5 with h5 | h5 <;> omega
    subst bk
    subst n
    refine ⟨_, push_full C hC hW false cont hL j j hj (Or.inl rfl) x, ?_, ?_⟩
    · show C = min (C + 1) C
      omega
    · refine InvA_live_mk C _ C ((j + 1) % C) ((j + 1) % C)
        (by rw [List.length_set, hL]) (by omega) (by omega)
        (Nat.mod_lt _ hC) (Nat.mod_lt _ hC) (Or.inr rfl)
  · rcases hcase with ⟨h0, hf, hb⟩ | ⟨h1, h2, h3, h4, h5⟩
    · -- empty buffer: front is the end sentinel, back at the start
      subst n
      subst j
      subst bk
      have heq : push C false ⟨cont, 0, C, 0⟩ x =
          some ⟨cont.set 0 x, 0 + 1, 0, (0 + 1) % C⟩ := by
        rw [push_mk, if_neg (by simp), if_neg (show ¬((0 : Nat) = C) by omega),
          wrap_back_mk, if_neg (show ¬((0 : Nat) = cont.length) by
            rw [hL]; omega),
          write_back_mk, advance_back_mk, if_pos (show (0 : Nat) < C from hC),
          if_pos (by
            constructor
            · rw [List.length_set, hL, if_pos rfl]
              omega
            · rw [List.length_set, hL]
              omega)]
        rw [List.length_set, hL, if_pos rfl, succ_mod_ring hC,
          incSize_eq_succ (by omega)]
      refine ⟨_, heq, ?_, ?_⟩
      · show 0 + 1 = min (0 + 1) C
        omega
      · exact InvA_live_mk C _ (0 + 1) 0 ((0 + 1) % C)
          (by rw [List.length_set, hL]) (by omega) (by omega) hC
          (Nat.mod_lt _ hC)
          (rel_step C 0 0 0 hC hC hC (by omega) (Or.inl rfl))
    · -- partially filled buffer: plain overwrite of the next free slot
      have heq : push C false ⟨cont, n, j, bk⟩ x =
          some ⟨cont.set bk x, n + 1, j, (bk + 1) % C⟩ := by
        rw [push_mk, if_neg (by simp), if_neg hn, wrap_back_mk,
          if_neg (show ¬(bk = cont.length) by rw [hL]; omega),
          write_back_mk, advance_back_mk, if_pos (show n < C by omega),
          if_pos (by
            constructor
            · rw [List.length_set, hL, if_neg (show ¬(j = C) by omega)]
              omega
            · rw [List.length_set, hL]
              omega)]
        rw [List.length_set, hL, if_neg (show ¬(j = C) by omega),
          succ_mod_ring h4, incSize_eq_succ (by omega)]
      refine ⟨_, heq, ?_, ?_⟩
      · show n + 1 = min (n + 1) C
        omega
      · exact InvA_live_mk C _ (n + 1) j ((bk + 1) % C)
          (by rw [List.length_set, hL]) (by omega) (by omega) h3
          (Nat.mod_lt _ hC)
          (rel_step C j n bk hC h3 h4 (by omega) h5)

/-- `advance_back()` on an array-backed buffer satisfying the invariant:
whenever it does not abort, it preserves the invariant and increments the
count. -/
lemma advance_back_preservesA (C : Nat) (hC : 0 < C) (hW : C < USIZE)
    (cont : List Int) (n j bk : Nat) {b2 : RB Int}
    (hInv : InvA C ⟨cont, n, j, bk⟩)
    (hab : advance_back C ⟨cont, n, j, bk⟩ = some b2) :
    InvA C b2 ∧ b2.curSize = n + 1 := by
  rw [InvA_mk_iff] at hInv
  obtain ⟨hL, hcase⟩ := hInv
  rw [advance_back_mk, hL] at hab
  by_cases hlt : n < C
  · rw [if_pos hlt] at hab
    rcases hcase with ⟨h0, hf, hb⟩ | ⟨h1, h2, h3, h4, h5⟩
    · subst n
      subst j
      subst bk
      rw [if_pos (by rw [if_pos rfl]; omega), if_pos rfl,
        succ_mod_ring hC, incSize_eq_succ (by omega)] at hab
      obtain rfl : (⟨cont, 0 + 1, 0, (0 + 1) % C⟩ : RB Int) = b2 :=
        Option.some.injEq _ _ ▸ hab
      exact ⟨InvA_live_mk C cont (0 + 1) 0 ((0 + 1) % C) hL (by omega)
        (by omega) hC (Nat.mod_lt _ hC)
        (rel_step C 0 0 0 hC hC hC (by omega) (Or.inl rfl)), rfl⟩
    · rw [if_pos (by rw [if_neg (show ¬(j = C) by omega)]; omega),
        if_neg (show ¬(j = C) by omega), succ_mod_ring h4,
        incSize_eq_succ (by omega)] at hab
      obtain rfl : (⟨cont, n + 1, j, (bk + 1) % C⟩ : RB Int) = b2 :=
        Option.some.injEq _ _ ▸ hab
      exact ⟨InvA_live_mk C cont (n + 1) j ((bk + 1) % C) hL (by omega)
        (by omega) h3 (Nat.mod_lt _ hC)
        (rel_step C j n bk hC h3 h4 (by omega) h5), rfl⟩
  · rw [if_neg hlt] at hab
    exact absurd hab (by simp)

/-- `reset()` restores the invariant's empty state. -/
lemma reset_preservesA (C : Nat) (b : RB Int) (hInv : InvA C b) :
    InvA C (reset b) := by
  obtain ⟨hL, -⟩ := hInv
  exact ⟨hL, Or.inl ⟨rfl, hL, rfl⟩⟩

/-- The non-`push_back` branch of `push_imp`, generically: when the store
is at physical length `C`, the push succeeds and the new count is the
incremented (possibly post-eviction) count.  Only the container length and
count are tracked; the cursors are arbitrary. -/
lemma push_else_generic (C : Nat) (g : Bool) (b : RB Int) (x : Int)
    (hno : ¬(g = true ∧ b.container.length < C))
    (hlen : b.container.length = C) (hC : 0 < C)
    (hsz : (if b.curSize = C then decSize b.curSize else b.curSize) < C) :
    ∃ b2, push C g b x = some b2 ∧ b2.container.length = C ∧
      b2.curSize = incSize (if b.curSize = C then decSize b.curSize
                            else b.curSize) := by
  unfold push push_imp
  rw [if_neg hno]
  have hb1c : (if b.curSize = C then advance_front_core b else b).container
      = b.container := by
    split
    · exact advance_front_core_container b
    · rfl
  have hb1n : (if b.curSize = C then advance_front_core b else b).curSize
      = (if b.curSize = C then decSize b.curSize else b.curSize) := by
    split
    · exact advance_front_core_curSize b
    · rfl
  have hb2c : (wrap_back (if b.curSize = C then advance_front_core b else b)).container
      = b.container := by rw [wrap_back_container, hb1c]
  have hb2n : (wrap_back (if b.curSize = C then advance_front_core b else b)).curSize
      = (if b.curSize = C then decSize b.curSize else b.curSize) := by
    rw [wrap_back_curSize, hb1n]
  have hwn : (write_back (wrap_back (if b.curSize = C then advance_front_core b else b)) x).curSize
      = (if b.curSize = C then decSize b.curSize else b.curSize) := hb2n
  have hwl : (write_back (wrap_back (if b.curSize = C then advance_front_core b else b)) x).container.length
      = C := by
    show ((wrap_back _).container.set _ x).length = C
    rw [List.length_set, hb2c, hlen]
  refine ⟨_, advance_back_eq (by rw [hwn]; exact hsz) (by rw [hwl]; omega),
    ?_, ?_⟩
  · show (write_back _ x).container.length = C
    exact hwl
  · show incSize (write_back _ x).curSize = _
    rw [hwn]

/-- `push()` on a vector-backed buffer satisfying the invariant. -/
lemma push_preservesG (C : Nat) (hC : 0 < C) (hW : C < USIZE)
    (b : RB Int) (x : Int) (hInv : InvG C b) :
    ∃ b2, push C true b x = some b2 ∧
      b2.curSize = min (b.curSize + 1) C ∧ InvG C b2 := by
  obtain ⟨hLC, hnL⟩ := hInv
  by_cases hg : b.container.length < C
  · refine ⟨_, by unfold push push_imp; rw [if_pos ⟨rfl, hg⟩], ?_, ?_, ?_⟩
    · show incSize b.curSize = min (b.curSize + 1) C
      rw [incSize_eq_succ (by omega)]
      omega
    · show (b.container ++ [x]).length ≤ C
      rw [List.length_append, List.length_singleton]
      omega
    · show incSize b.curSize ≤ (b.container ++ [x]).length
      rw [incSize_eq_succ (by omega), List.length_append,
        List.length_singleton]
      omega
  · have hlen : b.container.length = C := by omega
    have hsz : (if b.curSize = C then decSize b.curSize else b.curSize) < C := by
      split
      · next h => rw [h, decSize_eq_sub (by omega) (by omega)]; omega
      · next h => omega
    obtain ⟨b2, hp, hl2, hn2⟩ :=
      push_else_generic C true b x (by rintro ⟨-, h⟩; omega) hlen hC hsz
    have hmin : b2.curSize = min (b.curSize + 1) C := by
      rw [hn2]
      by_cases hfull : b.curSize = C
      · rw [if_pos hfull, hfull, decSize_eq_sub (by omega) (by omega),
          incSize_eq_succ (by omega)]
        omega
      · rw [if_neg hfull, incSize_eq_succ (by omega)]
        omega
    exact ⟨b2, hp, hmin, by omega, by omega⟩

/-- `advance_front()` on a non-empty vector-backed buffer preserves the
(weak) growable invariant. -/
lemma pop_preservesG (C : Nat) (hW : C < USIZE) (b : RB Int)
    (hInv : InvG C b) (hne : b.curSize ≠ 0) :
    InvG C (advance_front_core b) ∧
      (advance_front_core b).curSize = b.curSize - 1 := by
  obtain ⟨h1, h2⟩ := hInv
  have hd : decSize b.curSize = b.curSize - 1 :=
    decSize_eq_sub (by omega) (by omega)
  refine ⟨⟨?_, ?_⟩, ?_⟩
  · rw [advance_front_core_container]
    exact h1
  · rw [advance_front_core_container, advance_front_core_curSize, hd]
    omega
  · rw [advance_front_core_curSize, hd]

/-- `reset()` restores the growable invariant trivially. -/
lemma reset_preservesG (C : Nat) (b : RB Int) (hInv : InvG C b) :
    InvG C (reset b) :=
  ⟨hInv.1, by show (0 : Nat) ≤ b.container.length; omega⟩

/-- Every state reachable through the public mutating operations satisfies
the invariant appropriate to its backing container. -/
lemma reach_inv (C : Nat) (hC : 0 < C) (hW : C < USIZE) {g : Bool}
    {b : RB Int} (h : Reachable C g b) : InvAll C g b := by
  induction h with
  | fresh_arr init hinit =>
    exact ⟨hinit, Or.inl ⟨rfl, hinit, rfl⟩⟩
  | fresh_vec =>
    exact ⟨by show ([] : List Int).length ≤ C; simp,
      by show (0 : Nat) ≤ ([] : List Int).length; omega⟩
  | @step_push g b b2 x hr hp ih =>
    cases g with
    | false =>
      obtain ⟨b3, hp2, -, hinv⟩ := push_preservesA C hC hW
        b.container b.curSize b.front_it b.back_it x ih
      have : some b2 = some b3 := hp.symm.trans hp2
      injection this with h2
      exact h2 ▸ hinv
    | true =>
      obtain ⟨b3, hp2, -, hinv⟩ := push_preservesG C hC hW b x ih
      have : some b2 = some b3 := hp.symm.trans hp2
      injection this with h2
      exact h2 ▸ hinv
  | @step_pop g b hr hne ih =>
    cases g with
    | false =>
      exact (pop_preservesA C hC hW b.container b.curSize b.front_it
        b.back_it ih hne).1
    | true =>
      exact (pop_preservesG C hW b ih hne).1
  | @step_reset g b hr ih =>
    cases g with
    | false => exact reset_preservesA C b ih
    | true => exact reset_preservesG C b ih
  | step_advance_back hr ha ih =>
    exact (advance_back_preservesA C hC hW _ _ _ _ ih ha).1

/-- Any reachable state has at most `Capacity` live elements. -/
lemma curSize_le (C : Nat) (hC : 0 < C) (hW : C < USIZE) {g : Bool}
    {b : RB Int} (hr : Reachable C g b) : b.curSize ≤ C := by
  have h := reach_inv C hC hW hr
  cases g with
  | false =>
    obtain ⟨-, hcase⟩ := h
    rcases hcase with ⟨h0, -, -⟩ | ⟨-, h2, -, -, -⟩ <;> omega
  | true =>
    obtain ⟨h1, h2⟩ := h
    omega

/-- `push` on any reachable state succeeds and moves the count to
`min (count + 1, Capacity)`. -/
lemma push_preserves_all (C : Nat) (hC : 0 < C) (hW : C < USIZE)
    (g : Bool) (b : RB Int) (x : Int) (hr : Reachable C g b) :
    ∃ b2, push C g b x = some b2 ∧ b2.curSize = min (b.curSize + 1) C := by
  have h := reach_inv C hC hW hr
  cases g with
  | false =>
    obtain ⟨b2, hp, hm, -⟩ := push_preservesA C hC hW
      b.container b.curSize b.front_it b.back_it x h
    exact ⟨b2, hp, hm⟩
  | true =>
    obtain ⟨b2, hp, hm, -⟩ := push_preservesG C hC hW b x h
    exact ⟨b2, hp, hm⟩

/-- Iterated pushes from any reachable state: the final count is
`min (count + number of pushes, Capacity)`. -/
lemma pushSeq_size (C : Nat) (hC : 0 < C) (hW : C < USIZE) (g : Bool) :
    ∀ (vs : List Int) (b : RB Int), Reachable C g b →
    ∃ b2, pushSeq C g b vs = some b2 ∧
      b2.curSize = min (b.curSize + vs.length) C ∧ Reachable C g b2 := by
  intro vs
  induction vs with
  | nil =>
    intro b hr
    have hle := curSize_le C hC hW hr
    exact ⟨b, rfl, by simp only [List.length_nil]; omega, hr⟩
  | cons v vs ih =>
    intro b hr
    have hle := curSize_le C hC hW hr
    obtain ⟨b1, hp, hm⟩ := push_preserves_all C hC hW g b v hr
    have hr1 : Reachable C g b1 := Reachable.step_push hr hp
    obtain ⟨b2, hs, hm2, hr2⟩ := ih b1 hr1
    refine ⟨b2, ?_, ?_, hr2⟩
    · simp only [pushSeq, hp, Option.some_bind]
      exact hs
    · rw [hm2, hm]
      simp only [List.length_cons]
      omega

lemma frontGet_final (C : Nat) (hC : 0 < C) (vs : List Int) (v : Int)
    (hlen : vs.length = C) :
    frontGet ⟨vs.set 0 v, C, 1 % C, 1 % C⟩ = (vs ++ [v])[1]? := by
  have hf : frontGet ⟨vs.set 0 v, C, 1 % C, 1 % C⟩ = (vs.set 0 v)[1 % C]? := by
    unfold frontGet front nil
    dsimp only
    rw [if_neg (by
      rintro (h | h)
      · rw [List.length_set, hlen] at h
        have := Nat.mod_lt 1 hC
        omega
      · omega)]
  rw [hf]
  by_cases hc1 : C = 1
  · subst hc1
    rw [show (1 : Nat) % 1 = 0 from rfl,
      List.getElem?_set_self (by omega),
      List.getElem?_append_right (by omega)]
    simp [hlen]
  · rw [show 1 % C = 1 from Nat.mod_eq_of_lt (by omega),
      List.getElem?_set_ne (by omega),
      List.getElem?_append_left (by omega)]

/-- C1: pushing `C + 1` values `vs ++ [v]` (`vs.length = C`) into a fresh
buffer of capacity `C` reaches, on both backings, the state whose live
contents are the last `C` pushed values and whose front designates the
second value pushed. -/
theorem c1_overwrite_oldest (C : Nat) (hC : 0 < C) (hW : C < USIZE)
    (vs : List Int) (v d : Int) (hlen : vs.length = C) :
    ∃ bA bG,
      pushSeq C false (mkRB (List.replicate C d)) (vs ++ [v]) = some bA ∧
      pushSeq C true (mkRB []) (vs ++ [v]) = some bG ∧
      contents d bA = (vs ++ [v]).drop 1 ∧
      contents d bG = (vs ++ [v]).drop 1 ∧
      frontGet bA = (vs ++ [v])[1]? ∧
      frontGet bG = (vs ++ [v])[1]? := by
  have hfinalA : pushSeq C false (mkRB (List.replicate C d)) (vs ++ [v]) =
      some ⟨vs.set 0 v, C, 1 % C, 1 % C⟩ := by
    rw [pushSeq_append, pushSeqA C hC hW vs d (le_of_eq hlen)]
    have h1 : vs ++ List.replicate (C - vs.length) d = vs := by
      rw [hlen, Nat.sub_self]
      simp
    have h2 : (if vs.length = 0 then C else 0) = 0 := by
      rw [if_neg (by omega)]
    rw [h1, h2, hlen, Nat.mod_self, Option.some_bind]
    simp only [pushSeq]
    rw [push_full C hC hW false vs hlen 0 0 hC (Or.inl rfl) v]
    simp only [Option.some_bind]
  have hfinalG : pushSeq C true (mkRB []) (vs ++ [v]) =
      some ⟨vs.set 0 v, C, 1 % C, 1 % C⟩ := by
    rw [pushSeq_append, pushSeq_grow C hW vs (le_of_eq hlen), hlen,
      Option.some_bind]
    simp only [pushSeq]
    rw [push_full C hC hW true vs hlen 0 C hC (Or.inr ⟨rfl, rfl⟩) v]
    simp only [Option.some_bind]
  have hcont : contents d ⟨vs.set 0 v, C, 1 % C, 1 % C⟩ =
      (vs ++ [v]).drop 1 := by
    rw [List.drop_append_of_le_length (by omega)]
    exact contents_full_rotate C hC vs v d hlen
  have hfront := frontGet_final C hC vs v hlen
  exact ⟨_, _, hfinalA, hfinalG, hcont, hcont, hfront, hfront⟩

/-- C2: after pushing `vs` (`1 ≤ vs.length ≤ C`) into a fresh buffer and
then popping `k < vs.length` times, `front()` designates `vs[k]`, on both
backings: strict insertion order. -/
theorem c2_fifo_order (C : Nat) (hC : 0 < C) (hW : C < USIZE)
    (vs : List Int) (d : Int) (k : Nat)
    (hle : vs.length ≤ C) (hk : k < vs.length) :
    ∃ bA bG,
      pushSeq C false (mkRB (List.replicate C d)) vs = some bA ∧
      pushSeq C true (mkRB []) vs = some bG ∧
      frontGet (popN k bA) = vs[k]? ∧
      frontGet (popN k bG) = vs[k]? := by
  have hn1 : 1 ≤ vs.length := by omega
  refine ⟨_, _, pushSeqA C hC hW vs d hle, pushSeq_grow C hW vs hle, ?_, ?_⟩
  · -- array-backed
    have hfr : (if vs.length = 0 then C else 0) = 0 := by
      rw [if_neg (by omega)]
    rw [hfr]
    have hstore : (vs ++ List.replicate (C - vs.length) d).length = C := by
      rw [List.length_append, List.length_replicate]
      omega
    have hbkcase : vs.length % C = 0 ∨ 0 + vs.length ≤ vs.length % C := by
      by_cases h : vs.length = C
      · rw [h, Nat.mod_self]
        exact Or.inl rfl
      · rw [Nat.mod_eq_of_lt (by omega)]
        exact Or.inr (by omega)
    rw [popN_closed _ k vs.length 0 (vs.length % C) hk (by omega) (by omega)
      hbkcase]
    have hfront : frontGet ⟨vs ++ List.replicate (C - vs.length) d,
        vs.length - k, 0 + k, vs.length % C⟩ =
        (vs ++ List.replicate (C - vs.length) d)[0 + k]? := by
      unfold frontGet front nil
      dsimp only
      rw [if_neg (by
        rintro (h | h)
        · rw [hstore] at h
          omega
        · omega)]
    rw [hfront, List.getElem?_append_left (by omega)]
    congr 1
    omega
  · -- vector-backed
    have hbkcase : vs.length = 0 ∨ 0 + vs.length ≤ vs.length :=
      Or.inr (by omega)
    rw [popN_closed _ k vs.length 0 vs.length hk (by omega) (by omega)
      hbkcase]
    have hfront : frontGet ⟨vs, vs.length - k, 0 + k, vs.length⟩ =
        vs[0 + k]? := by
      unfold frontGet front nil
      dsimp only
      rw [if_neg (by
        rintro (h | h) <;> omega)]
    rw [hfront]
    congr 1
    omega

/-- C3 (amended): in every state of the fixed-size instantiation reachable
through the buffer's own mutating operations, `full()` holds iff
`curSize = Capacity`, and in that full state `back_it = front_it`. -/
theorem c3_full_invariant (C : Nat) (hC : 0 < C) (hW : C < USIZE)
    (b : RB Int) (hr : Reachable C false b) :
    (full C b = true ↔ b.curSize = C) ∧
    (b.curSize = C → b.front_it = b.back_it) := by
  have h : InvA C b := reach_inv C hC hW hr
  obtain ⟨hL, hcase⟩ := h
  constructor
  · simp [full]
  · intro hfull
    rcases hcase with ⟨h0, -, -⟩ | ⟨-, -, h3, h4, h5⟩
    · omega
    · rcases h5 with h5 | h5 <;> omega

/-- C3 counterexample: a growable buffer of capacity 1 after one single
push is full, yet its back cursor (the container's end) differs from its
front cursor (the start). -/
theorem c3_counterexample :
    push 1 true (mkRB ([] : List Int)) 5 = some ⟨[5], 1, 0, 1⟩ ∧
    full 1 (⟨[5], 1, 0, 1⟩ : RB Int) = true ∧
    (⟨[5], 1, 0, 1⟩ : RB Int).front_it ≠ (⟨[5], 1, 0, 1⟩ : RB Int).back_it := by
  decide

/-- C3 witness at capacity 2 on the freshly constructed array-backed
state. -/
theorem c3_witness :
    (full 2 (mkRB ([0, 0] : List Int)) = true ↔
      (mkRB ([0, 0] : List Int)).curSize = 2) ∧
    ((mkRB ([0, 0] : List Int)).curSize = 2 →
      (mkRB ([0, 0] : List Int)).front_it = (mkRB ([0, 0] : List Int)).back_it) :=
  c3_full_invariant 2 (by norm_num) (by norm_num [USIZE]) _
    (Reachable.fresh_arr [0, 0] (by norm_num))

/-- C4 (amended): in every reachable state of the fixed-size
instantiation, `back()` returns `nil()` exactly when the buffer is full. -/
theorem c4_back_nil_iff_full (C : Nat) (hC : 0 < C) (hW : C < USIZE)
    (b : RB Int) (hr : Reachable C false b) :
    back b = nil b ↔ full C b = true := by
  have h : InvA C b := reach_inv C hC hW hr
  obtain ⟨hL, hcase⟩ := h
  have hfull : (full C b = true) ↔ b.curSize = C := by simp [full]
  rw [hfull]
  unfold back nil
  rcases hcase with ⟨h0, hf, hb⟩ | ⟨h1, h2, h3, h4, h5⟩
  · rw [hf, hb, hL, if_neg (by omega)]
    constructor
    · intro he
      omega
    · intro he
      omega
  · by_cases heq : b.front_it = b.back_it
    · rw [if_pos heq]
      constructor
      · intro _
        rcases h5 with h5 | h5 <;> omega
      · intro _
        rfl
    · rw [if_neg heq, hL]
      constructor
      · intro he
        omega
      · intro he
        exfalso
        rcases h5 with h5 | h5 <;> omega

/-- C4 counterexample: after one push into an empty growable buffer of
capacity 3 (the claim's own scenario), `back()` equals `nil()` although
the buffer is not full (`back_it` is the container's end position). -/
theorem c4_counterexample :
    push 3 true (mkRB ([] : List Int)) 1 = some ⟨[1], 1, 0, 1⟩ ∧
    back (⟨[1], 1, 0, 1⟩ : RB Int) = nil (⟨[1], 1, 0, 1⟩ : RB Int) ∧
    full 3 (⟨[1], 1, 0, 1⟩ : RB Int) = false := by
  decide

/-- C4 witness at capacity 2 on the freshly constructed array-backed
state. -/
theorem c4_witness :
    back (mkRB ([0, 0] : List Int)) = nil (mkRB ([0, 0] : List Int)) ↔
      full 2 (mkRB ([0, 0] : List Int)) = true :=
  c4_back_nil_iff_full 2 (by norm_num) (by norm_num [USIZE]) _
    (Reachable.fresh_arr [0, 0] (by norm_num))

/-- C5 (amended): for the fixed-size instantiation, in every reachable
state `curSize = 0` iff the front cursor is the end sentinel; and popping
the last element (count 1) makes the advanced front meet the back, so the
front becomes the sentinel, the back the physical start, and the count 0. -/
theorem c5_empty_sentinel (C : Nat) (hC : 0 < C) (hW : C < USIZE)
    (b : RB Int) (hr : Reachable C false b) :
    (b.curSize = 0 ↔ b.front_it = b.container.length) ∧
    (b.curSize = 1 →
      advance_front_core b = ⟨b.container, 0, b.container.length, 0⟩) := by
  have h : InvA C b := reach_inv C hC hW hr
  obtain ⟨cont, n, j, bk⟩ := b
  dsimp only
  rw [InvA_mk_iff] at h
  obtain ⟨hL, hcase⟩ := h
  constructor
  · rcases hcase with ⟨h0, hf, -⟩ | ⟨h1, -, h3, -, -⟩
    · constructor
      · intro _
        rw [hf, hL]
      · intro _
        exact h0
    · constructor
      · intro h
        omega
      · intro h
        rw [hL] at h
        omega
  · intro h1c
    rcases hcase with ⟨h0, -, -⟩ | ⟨-, -, h3, h4, h5⟩
    · omega
    · have hd : decSize n = 0 := by
        rw [h1c, decSize_eq_sub (by omega) (by omega)]
      rw [advance_front_core_mk,
        if_neg (show ¬(j = cont.length) by rw [hL]; omega)]
      by_cases hj1 : j + 1 = cont.length
      · rw [if_pos hj1]
        rw [hL] at hj1
        rw [if_pos (show (0 : Nat) = bk by
          rcases h5 with h5 | h5 <;> omega), hd]
      · rw [if_neg hj1]
        rw [hL] at hj1
        rw [if_pos (show j + 1 = bk by
          rcases h5 with h5 | h5 <;> omega), hd]

/-- C5 counterexample: on a growable store (capacity 3), push one value
and pop it: the count is 0 but the front cursor is the container's start,
not the end sentinel. -/
theorem c5_counterexample :
    push 3 true (mkRB ([] : List Int)) 7 = some ⟨[7], 1, 0, 1⟩ ∧
    advance_front_core (⟨[7], 1, 0, 1⟩ : RB Int) = ⟨[7], 0, 0, 1⟩ ∧
    (⟨[7], 0, 0, 1⟩ : RB Int).curSize = 0 ∧
    (⟨[7], 0, 0, 1⟩ : RB Int).front_it ≠
      (⟨[7], 0, 0, 1⟩ : RB Int).container.length := by
  decide

/-- C5 witness at capacity 2 on the freshly constructed array-backed
state. -/
theorem c5_witness :
    ((mkRB ([0, 0] : List Int)).curSize = 0 ↔
      (mkRB ([0, 0] : List Int)).front_it =
        (mkRB ([0, 0] : List Int)).container.length) ∧
    ((mkRB ([0, 0] : List Int)).curSize = 1 →
      advance_front_core (mkRB ([0, 0] : List Int)) =
        ⟨(mkRB ([0, 0] : List Int)).container, 0,
         (mkRB ([0, 0] : List Int)).container.length, 0⟩) :=
  c5_empty_sentinel 2 (by norm_num) (by norm_num [USIZE]) _
    (Reachable.fresh_arr [0, 0] (by norm_num))

/-- C6 (amended): `advance_back()` on a full buffer aborts on its
assertion (`none`); `advance_front()` on an empty buffer contains no
assertion at all: it returns normally, with the `size_t` count wrapped
around to `2^64 - 1`. -/
theorem c6_failfast (C : Nat) (b c : RB Int) :
    (b.curSize = C → advance_back C b = none) ∧
    (c.curSize = 0 →
      advance_front c = some (advance_front_core c) ∧
      (advance_front_core c).curSize = USIZE - 1) := by
  constructor
  · intro h
    unfold advance_back
    rw [if_neg (by omega)]
  · intro h
    refine ⟨rfl, ?_⟩
    rw [advance_front_core_curSize, h, decSize_zero]

/-- C6 counterexample: `advance_front()` on a freshly constructed (empty)
array-backed buffer of capacity 1 does not abort: it returns a state whose
count has underflowed to `2^64 - 1`. -/
theorem c6_counterexample :
    advance_front (mkRB ([0] : List Int)) ≠ none ∧
    advance_front (mkRB ([0] : List Int)) = some ⟨[0], USIZE - 1, 1, 0⟩ := by
  constructor
  · decide
  · decide

/-- C6 witness: a concrete full buffer of capacity 2 and a concrete empty
buffer. -/
theorem c6_witness :
    (⟨[1, 2], 2, 0, 0⟩ : RB Int).curSize = 2 ∧
    advance_back 2 (⟨[1, 2], 2, 0, 0⟩ : RB Int) = none ∧
    (mkRB ([0] : List Int)).curSize = 0 ∧
    (advance_front (mkRB ([0] : List Int)) =
      some (advance_front_core (mkRB ([0] : List Int))) ∧
     (advance_front_core (mkRB ([0] : List Int))).curSize = USIZE - 1) :=
  ⟨by decide, (c6_failfast 2 ⟨[1, 2], 2, 0, 0⟩ (mkRB [0])).1 (by decide),
   by decide, (c6_failfast 2 ⟨[1, 2], 2, 0, 0⟩ (mkRB [0])).2 (by decide)⟩

/-- C1 witness: capacity 2, pushing `[1, 2] ++ [3]`. -/
theorem c1_witness :
    0 < 2 ∧ 2 < USIZE ∧ ([1, 2] : List Int).length = 2 ∧
    (∃ bA bG,
      pushSeq 2 false (mkRB (List.replicate 2 (0 : Int)))
        ([1, 2] ++ [3]) = some bA ∧
      pushSeq 2 true (mkRB []) (([1, 2] : List Int) ++ [3]) = some bG ∧
      contents 0 bA = (([1, 2] : List Int) ++ [3]).drop 1 ∧
      contents 0 bG = (([1, 2] : List Int) ++ [3]).drop 1 ∧
      frontGet bA = (([1, 2] : List Int) ++ [3])[1]? ∧
      frontGet bG = (([1, 2] : List Int) ++ [3])[1]?) :=
  ⟨by norm_num, by norm_num [USIZE], by norm_num,
   c1_overwrite_oldest 2 (by norm_num) (by norm_num [USIZE]) [1, 2] 3 0
     (by norm_num)⟩

/-- C2 witness: capacity 3, pushing `[4, 5]` and popping once. -/
theorem c2_witness :
    0 < 3 ∧ 3 < USIZE ∧ ([4, 5] : List Int).length ≤ 3 ∧ 1 < ([4, 5] : List Int).length ∧
    (∃ bA bG,
      pushSeq 3 false (mkRB (List.replicate 3 (0 : Int))) [4, 5] = some bA ∧
      pushSeq 3 true (mkRB []) ([4, 5] : List Int) = some bG ∧
      frontGet (popN 1 bA) = ([4, 5] : List Int)[1]? ∧
      frontGet (popN 1 bG) = ([4, 5] : List Int)[1]?) :=
  ⟨by norm_num, by norm_num [USIZE], by norm_num, by norm_num,
   c2_fifo_order 3 (by norm_num) (by norm_num [USIZE]) [4, 5] 0 1
     (by norm_num) (by norm_num)⟩

/-- C7 (amended): `push` succeeds on every reachable state of either
backing, moving the count to `min (count + 1, Capacity)`; pure push
sequences from a fresh buffer keep `size() ≤ capacity()` throughout and
reach `size() = capacity()` after at least `capacity()` pushes. -/
theorem c7_push_never_fails (C : Nat) (hC : 0 < C) (hW : C < USIZE) :
    (∀ (g : Bool) (b : RB Int) (x : Int), Reachable C g b →
      ∃ b2, push C g b x = some b2 ∧ b2.curSize = min (b.curSize + 1) C) ∧
    (∀ (vs : List Int) (d : Int),
      ∃ bA bG,
        pushSeq C false (mkRB (List.replicate C d)) vs = some bA ∧
        pushSeq C true (mkRB []) vs = some bG ∧
        size bA = min vs.length C ∧ size bG = min vs.length C ∧
        size bA ≤ capacity C bA ∧ size bG ≤ capacity C bG ∧
        (C ≤ vs.length →
          size bA = capacity C bA ∧ size bG = capacity C bG)) := by
  constructor
  · intro g b x hr
    exact push_preserves_all C hC hW g b x hr
  · intro vs d
    obtain ⟨bA, hA, hmA, -⟩ := pushSeq_size C hC hW false vs
      (mkRB (List.replicate C d))
      (Reachable.fresh_arr _ (by simp))
    obtain ⟨bG, hG, hmG, -⟩ := pushSeq_size C hC hW true vs (mkRB [])
      Reachable.fresh_vec
    have hA2 : bA.curSize = min vs.length C := by
      rw [hmA]
      simp [mkRB]
    have hG2 : bG.curSize = min vs.length C := by
      rw [hmG]
      simp [mkRB]
    exact ⟨bA, bG, hA, hG, hA2, hG2,
      by show bA.curSize ≤ C; omega,
      by show bG.curSize ≤ C; omega,
      fun hge => ⟨by show bA.curSize = C; omega,
        by show bG.curSize = C; omega⟩⟩

/-- C7 counterexample: on a growable store of capacity 3, push one value,
then call `advance_back()` twice (each time on a non-full buffer, so no
precondition is violated); the next push grows the store by `push_back`
and leaves count 4, not `min (3 + 1) 3 = 3`. -/
theorem c7_counterexample :
    push 3 true (mkRB ([] : List Int)) 1 = some ⟨[1], 1, 0, 1⟩ ∧
    (⟨[1], 1, 0, 1⟩ : RB Int).curSize < 3 ∧
    advance_back 3 (⟨[1], 1, 0, 1⟩ : RB Int) = some ⟨[1], 2, 0, 2⟩ ∧
    (⟨[1], 2, 0, 2⟩ : RB Int).curSize < 3 ∧
    advance_back 3 (⟨[1], 2, 0, 2⟩ : RB Int) = some ⟨[1], 3, 0, 3⟩ ∧
    push 3 true (⟨[1], 3, 0, 3⟩ : RB Int) 2 = some ⟨[1, 2], 4, 0, 2⟩ ∧
    (⟨[1, 2], 4, 0, 2⟩ : RB Int).curSize ≠
      min ((⟨[1], 3, 0, 3⟩ : RB Int).curSize + 1) 3 := by
  decide

/-- C7 witness: capacity 2, one push on the fresh array-backed buffer and
the push sequence `[7, 8, 9]` on both backings. -/
theorem c7_witness :
    0 < 2 ∧ 2 < USIZE ∧
    (∃ b2, push 2 false (mkRB (List.replicate 2 (0 : Int))) 9 = some b2 ∧
      b2.curSize = min ((mkRB (List.replicate 2 (0 : Int))).curSize + 1) 2) ∧
    (∃ bA bG,
      pushSeq 2 false (mkRB (List.replicate 2 (0 : Int))) [7, 8, 9] = some bA ∧
      pushSeq 2 true (mkRB []) ([7, 8, 9] : List Int) = some bG ∧
      size bA = min ([7, 8, 9] : List Int).length 2 ∧
      size bG = min ([7, 8, 9] : List Int).length 2 ∧
      size bA ≤ capacity 2 bA ∧ size bG ≤ capacity 2 bG ∧
      (2 ≤ ([7, 8, 9] : List Int).length →
        size bA = capacity 2 bA ∧ size bG = capacity 2 bG)) :=
  ⟨by norm_num, by norm_num [USIZE],
   (c7_push_never_fails 2 (by norm_num) (by norm_num [USIZE])).1 false
     (mkRB (List.replicate 2 (0 : Int))) 9
     (Reachable.fresh_arr _ (by simp)),
   (c7_push_never_fails 2 (by norm_num) (by norm_num [USIZE])).2 [7, 8, 9] 0⟩

/-- C8 (amended): the copy constructor re-expresses both cursors at their
ordinal offsets (in the index model, the identity), with the front
sentinel mapped to the new end; copy assignment does the same for the
front, but maps the back cursor to the new store's end-sentinel whenever
the *front* of the source is the sentinel (source line 99), instead of
keeping its ordinal offset. -/
theorem c8_copy_cursor_offsets (dest other : RB Int) :
    copy_ctor other = other ∧
    (other.front_it ≠ other.container.length →
      copy_assign dest other false = other) ∧
    (other.front_it = other.container.length →
      copy_assign dest other false =
        ⟨other.container, other.curSize, other.container.length,
         other.container.length⟩) := by
  refine ⟨?_, ?_, ?_⟩
  · unfold copy_ctor
    by_cases h : other.front_it = other.container.length
    · rw [if_pos h, ← h]
    · rw [if_neg h]
  · intro h
    unfold copy_assign
    rw [if_neg (by simp), if_neg h, if_neg h]
  · intro h
    unfold copy_assign
    rw [if_neg (by simp), if_pos h, if_pos h]

/-- C8 counterexample: copy-assigning from a freshly constructed (empty)
buffer, whose back cursor is at the physical start (0), yields a buffer
whose back cursor is the end-sentinel (1), not the physical start. -/
theorem c8_counterexample :
    (mkRB [(5 : Int)]).curSize = 0 ∧
    (mkRB [(5 : Int)]).back_it = 0 ∧
    (copy_assign (mkRB ([] : List Int)) (mkRB [(5 : Int)]) false).back_it = 1 := by
  decide

/-- C8 witness: a non-empty source state for the assignment clause. -/
theorem c8_witness :
    (⟨[1, 2], 1, 0, 1⟩ : RB Int).front_it ≠
      (⟨[1, 2], 1, 0, 1⟩ : RB Int).container.length ∧
    copy_assign (mkRB ([] : List Int)) (⟨[1, 2], 1, 0, 1⟩ : RB Int) false =
      ⟨[1, 2], 1, 0, 1⟩ ∧
    copy_ctor (⟨[1, 2], 1, 0, 1⟩ : RB Int) = ⟨[1, 2], 1, 0, 1⟩ :=
  ⟨by decide,
   (c8_copy_cursor_offsets (mkRB ([] : List Int)) ⟨[1, 2], 1, 0, 1⟩).2.1
     (by decide),
   (c8_copy_cursor_offsets (mkRB ([] : List Int)) ⟨[1, 2], 1, 0, 1⟩).1⟩

/-- C9: `reset()` empties the buffer, keeps the capacity and the stored
element values, and is idempotent. -/
theorem c9_reset_idempotent (C : Nat) (b : RB Int) :
    empty (reset b) = true ∧ size (reset b) = 0 ∧
    capacity C (reset b) = capacity C b ∧
    (reset b).container = b.container ∧
    reset (reset b) = reset b :=
  ⟨rfl, rfl, rfl, rfl, rfl⟩

/-- C10: self-assignment (the `&other == this` guard taken) leaves the
buffer unchanged, for both copy and move assignment. -/
theorem c10_self_assignment (b : RB Int) :
    copy_assign b b true = b ∧ move_assign b b true = b :=
  ⟨rfl, rfl⟩

end RingBuf
